import Mathlib

/-!
Verification of the ix_result monthly-rate pipeline.

The development shallowly embeds the pure core of the repository:

* the Column Normalizer (flatten_df_columns in read_csv_file.py,
  main.py, combined_processor.py, read_csv_file_wells.py),
* the Entity Time-Indexer for well scope (create_datetime_index_wells
  in combined_processor.py, _process_well_datetime in main.py),
* the Monthly Rate Engine (calculate_monthly_rates in read_csv_file.py;
  the same body appears as _calculate_field_monthly_rates in main.py,
  calculate_monthly_rates_field in combined_processor.py and
  gen_df_monthly_rates in read_csv_file_wells.py, and as the per-well
  loop body of calculate_monthly_rates_wells),
* the Index Formatter (format_monthly_index in combined_processor.py,
  _adjust_monthly_index in main.py).

Numeric cells are modelled as exact rationals; pandas NaN cells arising
from resampling are modelled as Option.  Timestamps inside one entity
series are represented by the calendar month of the sample (the only
datum the monthly resampler consumes) with list order playing the role
of time order; raw timestamps in the time indexer are rational day
numbers, with day zero at 0000-03-01 proleptic Gregorian.
-/

namespace IxResult

/-! ### Strings: Python substring test, str.strip and str.join -/

/-- Bool test that one character list is an initial segment of another. -/
def matchFront : List Char → List Char → Bool
  | [], _ => true
  | _ :: _, [] => false
  | a :: as, b :: bs => a == b && matchFront as bs

/-- Bool test that the needle occurs somewhere in the haystack. -/
def matchSomewhere (needle : List Char) : List Char → Bool
  | [] => matchFront needle []
  | c :: t => matchFront needle (c :: t) || matchSomewhere needle t

/-- Python substring containment: needle in hay. -/
def containsStr (hay needle : String) : Bool :=
  matchSomewhere needle.toList hay.toList

/-- Drop leading underscore characters. -/
def dropUS : List Char → List Char
  | [] => []
  | c :: t => if c == '_' then dropUS t else c :: t

/-- Python s.strip of the underscore character: remove leading and
trailing underscores. -/
def stripUS (s : String) : String :=
  ⟨(dropUS (dropUS s.toList).reverse).reverse⟩

/-- Python underscore.join of a list of strings. -/
def joinUS : List String → String
  | [] => ""
  | [s] => s
  | s :: rest => s ++ "_" ++ joinUS rest

/-! ### Column Normalizer (flatten_df_columns)

A pandas column container is either a 3-level MultiIndex, whose entries
are tuples of level labels, or a flat Index of plain string names.  The
source iterates each column entry with a Python for loop; on a tuple
this yields the level labels, on a plain string it yields the
characters of the name.  Both cases are embedded. -/

/-- One column entry of a MultiIndex header: join the levels whose label
does not contain the Unnamed placeholder marker, then strip leading and
trailing underscores. -/
def flattenLevels (col : List String) : String :=
  stripUS (joinUS (col.filter (fun c => !(containsStr c "Unnamed"))))

/-- One column entry of a flat header: Python iterates the characters of
the name, so each character becomes one joined item. -/
def flattenFlatName (s : String) : String :=
  stripUS (joinUS ((s.toList.map (fun ch => String.mk [ch])).filter
    (fun c => !(containsStr c "Unnamed"))))

/-- A pandas header: multi-level or already flattened. -/
inductive Header where
  | multi (cols : List (List String))
  | flat (names : List String)
deriving DecidableEq

/-- flatten_df_columns: flatten the header entries and drop the columns
whose resulting name is empty. -/
def flatten_df_columns : Header → Header
  | .multi cols => .flat ((cols.map flattenLevels).filter (fun n => n ≠ ""))
  | .flat names => .flat ((names.map flattenFlatName).filter (fun n => n ≠ ""))

/-- The column names of a header that is already flat. -/
def flatNamesOf : Header → List String
  | .multi _ => []
  | .flat names => names

/-- Concrete two-character multi-level header used to refute idempotence
of the normalizer. -/
def c3Header : Header := .multi [["AB"]]

/-- Concrete header whose flattened names are single characters; on such
headers a second flattening is a no-op. -/
def c3wHeader : Header := .multi [["A", "Unnamed: 1", ""], ["B"]]

lemma matchFront_length {n h : List Char} (hm : matchFront n h = true) :
    n.length ≤ h.length := by
  induction n generalizing h with
  | nil => simp
  | cons a as ih =>
    cases h with
    | nil => simp [matchFront] at hm
    | cons b bs =>
      simp only [matchFront, Bool.and_eq_true] at hm
      simpa using ih hm.2

lemma matchSomewhere_length {n h : List Char} (hm : matchSomewhere n h = true) :
    n.length ≤ h.length := by
  induction h with
  | nil =>
    cases n with
    | nil => simp
    | cons a as => simp [matchSomewhere, matchFront] at hm
  | cons c t ih =>
    simp only [matchSomewhere, Bool.or_eq_true] at hm
    rcases hm with hm | hm
    · exact matchFront_length hm
    · exact le_trans (ih hm) (by simp)

lemma containsStr_short {s : String} (hlen : s.toList.length < 7) :
    containsStr s "Unnamed" = false := by
  cases h : containsStr s "Unnamed" with
  | false => rfl
  | true =>
    exfalso
    have h7 : (7 : ℕ) ≤ s.toList.length := by
      simpa using matchSomewhere_length h
    omega

lemma stripUS_single {c : Char} (hc : c ≠ '_') :
    stripUS (String.mk [c]) = String.mk [c] := by
  have hb : (c == '_') = false := by simpa using hc
  simp [stripUS, String.toList, dropUS, hb]

lemma joinUS_single (s : String) : joinUS [s] = s := rfl

lemma flattenFlatName_single {c : Char} (hc : c ≠ '_') :
    flattenFlatName (String.mk [c]) = String.mk [c] := by
  have h1 : containsStr (String.mk [c]) "Unnamed" = false :=
    containsStr_short (by simp [String.toList])
  simp [flattenFlatName, String.toList, h1, joinUS_single, stripUS_single hc]

lemma flatten_flat_fix {ns : List String} (hne : ∀ n ∈ ns, n ≠ "")
    (hshort : ∀ n ∈ ns, n.length ≤ 1 ∧ n ≠ "_") :
    flatten_df_columns (.flat ns) = .flat ns := by
  have hfix : ∀ n ∈ ns, flattenFlatName n = n := by
    intro n hn
    obtain ⟨hlen, hus⟩ := hshort n hn
    have hl : n.toList.length ≤ 1 := hlen
    cases n with
    | mk data =>
      cases data with
      | nil => exact absurd rfl (hne _ hn)
      | cons c t =>
        cases t with
        | nil =>
          have hc : c ≠ '_' := by
            intro hceq
            exact hus (by simp [hceq])
          exact flattenFlatName_single hc
        | cons d t' => simp [String.toList] at hl
  have hmap : ns.map flattenFlatName = ns := by
    conv_rhs => rw [← List.map_id ns]
    exact List.map_congr_left hfix
  have hfilter : ns.filter (fun n => n ≠ "") = ns := by
    rw [List.filter_eq_self]
    intro n hn
    simpa using hne n hn
  show Header.flat ((ns.map flattenFlatName).filter (fun n => n ≠ "")) = Header.flat ns
  rw [hmap, hfilter]

/-- C3 counterexample: the Column Normalizer is not idempotent.  A second
application iterates the characters of each already-flat name, joining
them with underscores, so the two-character name AB becomes A_B; in
particular flattening an already-flat header is not a no-op. -/
theorem c3_counterexample :
    flatten_df_columns (flatten_df_columns c3Header) ≠ flatten_df_columns c3Header ∧
    flatten_df_columns (Header.flat ["AB"]) ≠ Header.flat ["AB"] := by
  decide

/-- C3 (amended): applying flatten_df_columns twice equals applying it
once exactly when every once-flattened column name has at most one
character (and is not a bare underscore); for longer names the second
application inserts an underscore between every pair of adjacent
characters. -/
theorem c3_flatten_conditional_idem (h : Header)
    (hshort : ∀ n ∈ flatNamesOf (flatten_df_columns h), n.length ≤ 1 ∧ n ≠ "_") :
    flatten_df_columns (flatten_df_columns h) = flatten_df_columns h := by
  cases h with
  | multi cols =>
    refine flatten_flat_fix ?_ ?_
    · intro n hn
      have := List.of_mem_filter hn
      simpa using this
    · intro n hn
      exact hshort n hn
  | flat names =>
    refine flatten_flat_fix ?_ ?_
    · intro n hn
      have := List.of_mem_filter hn
      simpa using this
    · intro n hn
      exact hshort n hn

/-- Witness for the amended C3 theorem at a concrete header. -/
theorem c3_flatten_conditional_idem_witness :
    (∀ n ∈ flatNamesOf (flatten_df_columns c3wHeader), n.length ≤ 1 ∧ n ≠ "_") ∧
    flatten_df_columns (flatten_df_columns c3wHeader) = flatten_df_columns c3wHeader :=
  ⟨by decide, c3_flatten_conditional_idem c3wHeader (by decide)⟩

/-! ### Calendar arithmetic

Calendar months are addressed by an absolute month index 12 * year +
(month - 1); pandas DatetimeIndex.days_in_month is the Gregorian month
length.  Raw day numbers are converted to calendar dates with the
standard civil-from-days algorithm, counting day 0 as 0000-03-01. -/

/-- Gregorian leap-year rule. -/
def isLeapYear (y : ℕ) : Bool :=
  (y % 4 == 0 && y % 100 != 0) || y % 400 == 0

/-- Number of days of month m (1..12) of year y. -/
def daysInMonthYM (y m : ℕ) : ℕ :=
  match m with
  | 2 => if isLeapYear y then 29 else 28
  | 4 => 30
  | 6 => 30
  | 9 => 30
  | 11 => 30
  | _ => 31

/-- Number of days of the month with absolute index k. -/
def daysInMonth (k : ℕ) : ℕ := daysInMonthYM (k / 12) (k % 12 + 1)

/-- Civil date (year, month, day) of day number n, with day 0 at
0000-03-01 (Howard Hinnant's algorithm specialised to nonnegative n). -/
def civilOfDays (n : ℕ) : ℕ × ℕ × ℕ :=
  let era := n / 146097
  let doe := n % 146097
  let yoe := (doe - doe / 1460 + doe / 36524 - doe / 146096) / 365
  let y := yoe + era * 400
  let doy := doe - (365 * yoe + yoe / 4 - yoe / 100)
  let mp := (5 * doy + 2) / 153
  let d := doy - (153 * mp + 2) / 5 + 1
  let m := if mp < 10 then mp + 3 else mp - 9
  (if m ≤ 2 then y + 1 else y, m, d)

/-- Absolute month index of a day number. -/
def monthKeyOfDay (n : ℕ) : ℕ :=
  12 * (civilOfDays n).1 + ((civilOfDays n).2.1 - 1)

/-- Absolute month index of a timestamp (rational day number); pandas
resample groups an index entry by the calendar month of its date. -/
def monthKey (t : ℚ) : ℕ := monthKeyOfDay ⌊t⌋.toNat

/-- Rounding to two decimals, as Python round(x, 2).  The half-way
tie-breaking convention of the float primitive is ambiguous (spec
section 9); ties are resolved upward here, which no settled claim
depends on. -/
def round2 (x : ℚ) : ℚ := ((x * 100 + 1 / 2).floor : ℚ) / 100

/-! ### Monthly Rate Engine (calculate_monthly_rates)

An entity series is the time-indexed table handed to the engine: a list
of column names and one row per sample, carrying the calendar month of
the sample's timestamp and the numeric cell values in column order
(rows are listed in time order; input cells are never NaN, which holds
for the simulator exports the pipeline reads).  The engine is the body
of calculate_monthly_rates (read_csv_file.py lines 49-66); the same
statements appear in _calculate_field_monthly_rates (main.py),
calculate_monthly_rates_field (combined_processor.py, whose numeric
dtype guard is always satisfied here since all cells are numeric),
gen_df_monthly_rates (read_csv_file_wells.py) and the per-well loop of
calculate_monthly_rates_wells. -/

/-- One entity's time-indexed series. -/
structure Series where
  cols : List String
  rows : List (ℕ × List ℚ)
deriving DecidableEq

/-- The months of the series' samples, in time order. -/
def monthsOf (s : Series) : List ℕ := s.rows.map (·.1)

/-- The single-column series of column position j. -/
def colSeries (s : Series) (j : ℕ) : List (ℕ × ℚ) :=
  s.rows.map (fun r => (r.1, r.2.getD j 0))

/-- resample to month-end bins: the consecutive months from the earliest
to the latest sampled month (the bins of df.resample with monthly
frequency). -/
def spanMs (ms : List ℕ) : List ℕ :=
  match ms with
  | [] => []
  | h :: t => List.range' (t.foldl min h) (t.foldl max h + 1 - t.foldl min h)

/-- Cell value of the last row of a list, if any. -/
def lastCell : List (ℕ × ℚ) → Option ℚ
  | [] => none
  | [p] => some p.2
  | _ :: q :: t => lastCell (q :: t)

/-- Value of the last sample (in time order) of month m, if any: the
.last() aggregation of one month-end bin for one column. -/
def lastInMonth (xs : List (ℕ × ℚ)) (m : ℕ) : Option ℚ :=
  lastCell (xs.filter (fun p => p.1 == m))

/-- Arithmetic mean of the samples of month m, if any: the .mean()
aggregation of one month-end bin for one column. -/
def meanInMonth (xs : List (ℕ × ℚ)) (m : ℕ) : Option ℚ :=
  match (xs.filter (fun p => p.1 == m)).map (·.2) with
  | [] => none
  | v :: vs => some ((v :: vs).sum / (v :: vs).length)

/-- One month-end checkpoint row of df.resample with monthly frequency
followed by .last(): the j-th entry is the last value of column j in
that month, NaN (none) for a month with no sample. -/
def rowOpt (s : Series) (m : ℕ) : List (Option ℚ) :=
  (List.range s.cols.length).map (fun j => lastInMonth (colSeries s j) m)

/-- df_monthly_cum = df.resample to month ends, .last(). -/
def monthlyCum (s : Series) : List (ℕ × List (Option ℚ)) :=
  (spanMs (monthsOf s)).map (fun m => (m, rowOpt s m))

/-- NaN-propagating subtraction of the current cell and the previous
row's cell, as in DataFrame.diff. -/
def optSub (b a : Option ℚ) : Option ℚ :=
  match b, a with
  | some x, some y => some (x - y)
  | _, _ => none

/-- DataFrame.diff: each row minus the previous row; the first row's
predecessor is a row of NaNs. -/
def diffWithPrev (prev : List (Option ℚ)) :
    List (ℕ × List (Option ℚ)) → List (ℕ × List (Option ℚ))
  | [] => []
  | (m, v) :: rest => (m, List.zipWith optSub v prev) :: diffWithPrev v rest

/-- All-some sequencing of a row of cells. -/
def seqOptions : List (Option ℚ) → Option (List ℚ)
  | [] => some []
  | none :: _ => none
  | some x :: t => (seqOptions t).map (x :: ·)

/-- DataFrame.dropna: keep the rows with no NaN cell. -/
def dropnaRows (l : List (ℕ × List (Option ℚ))) : List (ℕ × List ℚ) :=
  l.filterMap (fun p => (seqOptions p.2).map (fun w => (p.1, w)))

/-- df_monthly_prod = df_monthly_cum.diff().dropna(). -/
def monthlyProd (s : Series) : List (ℕ × List ℚ) :=
  dropnaRows (diffWithPrev (List.replicate s.cols.length none) (monthlyCum s))

/-- Cumulative branch of the engine loop: round(df_monthly_prod of the
column divided by days_in_month of its row's month, 2 decimals). -/
def rateColValues (s : Series) (j : ℕ) : List ℚ :=
  (monthlyProd s).map (fun p => round2 (p.2.getD j 0 / (daysInMonth p.1 : ℚ)))

/-- Pressure branch of the engine loop: round(df of the column resampled
to month ends, .mean(), 2 decimals); assigning the resulting monthly
series as a column of df_mr aligns it on df_mr's index, which restricts
it to the months of df_monthly_prod (every such month has a sample, so
the mean there is defined and the default is never taken). -/
def presColValues (s : Series) (j : ℕ) : List ℚ :=
  (monthlyProd s).map (fun p => round2 ((meanInMonth (colSeries s j) p.1).getD 0))

/-- Column dispatch of the engine loop: a name containing CUML gets the
cumulative treatment, else a name containing PRESSURE gets the pressure
treatment, any other column is skipped. -/
def classifyColumnValues (s : Series) (j : ℕ) (c : String) :
    Option (String × List ℚ) :=
  if containsStr c "CUML" then some (c, rateColValues s j)
  else if containsStr c "PRESSURE" then some (c, presColValues s j)
  else none

/-- The monthly-rate table: its index and its columns (name and values,
each value list aligned with the index). -/
structure MRTable where
  idx : List ℕ
  cols : List (String × List ℚ)
deriving DecidableEq

/-- calculate_monthly_rates: df_mr is indexed by df_monthly_prod's index
and gains one column per matched input column, in input order. -/
def calculate_monthly_rates (s : Series) : MRTable :=
  { idx := (monthlyProd s).map (·.1)
  , cols := s.cols.enum.filterMap (fun p => classifyColumnValues s p.1 p.2) }

/-- pandas Series.unique: distinct values in first-occurrence order. -/
def uniqueFirst {α : Type} [BEq α] : List α → List α
  | [] => []
  | x :: t => x :: (uniqueFirst t).filter (fun y => !(y == x))

/-! ### Structure of the resampled index -/

lemma foldl_min_le_init (t : List ℕ) (h : ℕ) : t.foldl min h ≤ h := by
  induction t generalizing h with
  | nil => simp
  | cons x xs ih => exact le_trans (ih (min h x)) (min_le_left _ _)

lemma foldl_min_le_mem {t : List ℕ} {x : ℕ} (hx : x ∈ t) (h : ℕ) :
    t.foldl min h ≤ x := by
  induction t generalizing h with
  | nil => cases hx
  | cons y ys ih =>
    rcases List.mem_cons.mp hx with rfl | hx'
    · exact le_trans (foldl_min_le_init ys _) (min_le_right _ _)
    · exact ih hx' _

lemma init_le_foldl_max (t : List ℕ) (h : ℕ) : h ≤ t.foldl max h := by
  induction t generalizing h with
  | nil => simp
  | cons x xs ih => exact le_trans (le_max_left _ _) (ih (max h x))

lemma mem_le_foldl_max {t : List ℕ} {x : ℕ} (hx : x ∈ t) (h : ℕ) :
    x ≤ t.foldl max h := by
  induction t generalizing h with
  | nil => cases hx
  | cons y ys ih =>
    rcases List.mem_cons.mp hx with rfl | hx'
    · exact le_trans (le_max_right _ _) (init_le_foldl_max ys _)
    · exact ih hx' _

/-- The resampled index is the consecutive run of months from the
minimum to the maximum sampled month. -/
lemma spanMs_cons (h : ℕ) (t : List ℕ) :
    spanMs (h :: t) =
      List.range' (t.foldl min h) (t.foldl max h - t.foldl min h + 1) := by
  have hle : t.foldl min h ≤ t.foldl max h :=
    le_trans (foldl_min_le_init t h) (init_le_foldl_max t h)
  simp only [spanMs]
  congr 1
  omega

lemma mem_spanMs {ms : List ℕ} {m : ℕ} (hm : m ∈ ms) : m ∈ spanMs ms := by
  cases ms with
  | nil => cases hm
  | cons h t =>
    rw [spanMs_cons, List.mem_range'_1]
    rcases List.mem_cons.mp hm with rfl | hm'
    · exact ⟨foldl_min_le_init t m, by have := init_le_foldl_max t m; omega⟩
    · exact ⟨foldl_min_le_mem hm' h, by have := mem_le_foldl_max hm' h; omega⟩

/-! ### Option-row lemmas for diff and dropna -/

lemma seqOptions_map_some {α : Type} {l : List α} {F : α → Option ℚ} {G : α → ℚ}
    (h : ∀ x ∈ l, F x = some (G x)) :
    seqOptions (l.map F) = some (l.map G) := by
  induction l with
  | nil => rfl
  | cons x t ih =>
    have hx := h x (List.mem_cons_self x t)
    simp only [List.map_cons, hx, seqOptions]
    rw [ih (fun y hy => h y (List.mem_cons_of_mem x hy))]
    rfl

lemma seqOptions_map_none {α : Type} {l : List α} {F : α → Option ℚ} {x : α}
    (hx : x ∈ l) (hF : F x = none) :
    seqOptions (l.map F) = none := by
  induction l with
  | nil => cases hx
  | cons y t ih =>
    rcases List.mem_cons.mp hx with rfl | hx'
    · simp [seqOptions, hF]
    · simp only [List.map_cons, seqOptions]
      cases hFy : F y with
      | none => rfl
      | some v => simp [seqOptions, ih hx']

lemma lastCell_eq_none_iff {l : List (ℕ × ℚ)} : lastCell l = none ↔ l = [] := by
  induction l with
  | nil => simp [lastCell]
  | cons p t ih =>
    cases t with
    | nil => simp [lastCell]
    | cons q u =>
      rw [show lastCell (p :: q :: u) = lastCell (q :: u) from rfl, ih]
      simp

lemma lastInMonth_eq_none_iff {xs : List (ℕ × ℚ)} {m : ℕ} :
    lastInMonth xs m = none ↔ m ∉ xs.map (·.1) := by
  unfold lastInMonth
  rw [lastCell_eq_none_iff, List.filter_eq_nil_iff]
  constructor
  · intro h hmem
    obtain ⟨p, hp, hp1⟩ := List.mem_map.mp hmem
    exact absurd (by simpa using hp1) (by simpa using h p hp)
  · intro h p hp
    simp only [beq_iff_eq]
    intro hpm
    exact h (List.mem_map.mpr ⟨p, hp, hpm⟩)

/-- Value of the month-end checkpoint of column j at month m (zero when
the month has no sample; only used at months that do). -/
def lastv (s : Series) (j m : ℕ) : ℚ := (lastInMonth (colSeries s j) m).getD 0

lemma monthsOf_colSeries (s : Series) (j : ℕ) :
    (colSeries s j).map (·.1) = monthsOf s := by
  simp [colSeries, monthsOf, List.map_map]

lemma lastInMonth_of_mem {s : Series} {j m : ℕ} (hm : m ∈ monthsOf s) :
    lastInMonth (colSeries s j) m = some (lastv s j m) := by
  have hne : lastInMonth (colSeries s j) m ≠ none := by
    rw [Ne, lastInMonth_eq_none_iff, monthsOf_colSeries]
    simpa using hm
  cases h : lastInMonth (colSeries s j) m with
  | none => exact absurd h hne
  | some v => simp [lastv, h]

lemma lastInMonth_of_not_mem {s : Series} {j m : ℕ} (hm : m ∉ monthsOf s) :
    lastInMonth (colSeries s j) m = none := by
  rw [lastInMonth_eq_none_iff, monthsOf_colSeries]
  simpa using hm

/-- The sequenced diff of the checkpoint rows of months m and m' is
defined exactly when both months have a sample, in which case it is the
columnwise difference of the last values. -/
lemma seq_diff_rowOpt (s : Series) (hc : s.cols.length ≠ 0) (m m' : ℕ) :
    seqOptions (List.zipWith optSub (rowOpt s m) (rowOpt s m')) =
      if m ∈ monthsOf s ∧ m' ∈ monthsOf s then
        some ((List.range s.cols.length).map (fun j => lastv s j m - lastv s j m'))
      else none := by
  have hzip : List.zipWith optSub (rowOpt s m) (rowOpt s m') =
      (List.range s.cols.length).map
        (fun j => optSub (lastInMonth (colSeries s j) m) (lastInMonth (colSeries s j) m')) := by
    unfold rowOpt
    rw [List.zipWith_map_left, List.zipWith_map_right, List.zipWith_same]
  rw [hzip]
  by_cases hm : m ∈ monthsOf s
  · by_cases hm' : m' ∈ monthsOf s
    · rw [if_pos ⟨hm, hm'⟩]
      exact seqOptions_map_some (fun j _ => by
        rw [lastInMonth_of_mem hm, lastInMonth_of_mem hm']
        rfl)
    · rw [if_neg (by tauto)]
      refine seqOptions_map_none (x := 0) (List.mem_range.mpr ?_) ?_
      · omega
      · rw [lastInMonth_of_not_mem hm']
        cases lastInMonth (colSeries s 0) m <;> rfl
  · rw [if_neg (by tauto)]
    refine seqOptions_map_none (x := 0) (List.mem_range.mpr ?_) ?_
    · omega
    · rw [lastInMonth_of_not_mem hm]
      rfl

/-- The sequenced diff of the first checkpoint row against the all-NaN
previous row is NaN as soon as there is at least one column. -/
lemma seq_diff_first (s : Series) (hc : s.cols.length ≠ 0) (m : ℕ) :
    seqOptions (List.zipWith optSub (rowOpt s m)
      (List.replicate s.cols.length none)) = none := by
  have hrep : (List.replicate s.cols.length (none : Option ℚ)) =
      (List.range s.cols.length).map (fun _ => none) := by
    rw [List.map_const']
    simp
  have hzip : List.zipWith optSub (rowOpt s m) (List.replicate s.cols.length none) =
      (List.range s.cols.length).map
        (fun j => optSub (lastInMonth (colSeries s j) m) none) := by
    unfold rowOpt
    rw [hrep, List.zipWith_map_left, List.zipWith_map_right, List.zipWith_same]
  rw [hzip]
  refine seqOptions_map_none (x := 0) (List.mem_range.mpr ?_) ?_
  · omega
  · cases lastInMonth (colSeries s 0) m <;> rfl

/-- Specification form of df_monthly_cum.diff().dropna(): the months of
the resampled span, after the first, at which both the month and its
predecessor have a sample; the row of such a month holds the columnwise
difference of last values. -/
def prodSpec (s : Series) : List (ℕ × List ℚ) :=
  ((spanMs (monthsOf s)).drop 1).filterMap (fun m =>
    if m ∈ monthsOf s ∧ m - 1 ∈ monthsOf s then
      some (m, (List.range s.cols.length).map (fun j => lastv s j m - lastv s j (m - 1)))
    else none)

lemma dropnaRows_diff_range (s : Series) (hc : s.cols.length ≠ 0) :
    ∀ (n a : ℕ), 1 ≤ a →
    dropnaRows (diffWithPrev (rowOpt s (a - 1))
        ((List.range' a n).map (fun m => (m, rowOpt s m)))) =
      (List.range' a n).filterMap (fun m =>
        if m ∈ monthsOf s ∧ m - 1 ∈ monthsOf s then
          some (m, (List.range s.cols.length).map (fun j => lastv s j m - lastv s j (m - 1)))
        else none) := by
  intro n
  induction n with
  | zero => intro a _; rfl
  | succ n ih =>
    intro a ha
    rw [List.range'_succ, List.map_cons, List.filterMap_cons]
    show dropnaRows ((a, List.zipWith optSub (rowOpt s a) (rowOpt s (a - 1))) ::
      diffWithPrev (rowOpt s a) ((List.range' (a + 1) n).map (fun m => (m, rowOpt s m)))) = _
    unfold dropnaRows
    rw [List.filterMap_cons]
    have htail := ih (a + 1) (by omega)
    rw [show a + 1 - 1 = a from rfl] at htail
    unfold dropnaRows at htail
    rw [htail, seq_diff_rowOpt s hc]
    by_cases hcond : a ∈ monthsOf s ∧ a - 1 ∈ monthsOf s
    · rw [if_pos hcond, if_pos hcond]
      rfl
    · rw [if_neg hcond, if_neg hcond]
      rfl

/-- df_monthly_prod equals its specification form: resample, diff and
dropna keep exactly the non-initial span months whose own month and
predecessor month both carry a sample. -/
lemma monthlyProd_spec (s : Series) (hr : s.rows ≠ []) (hc : s.cols ≠ []) :
    monthlyProd s = prodSpec s := by
  have hclen : s.cols.length ≠ 0 := by
    cases hcs : s.cols with
    | nil => exact absurd hcs hc
    | cons x t => simp [hcs]
  obtain ⟨h, t, hms⟩ : ∃ h t, monthsOf s = h :: t := by
    cases hrw : s.rows with
    | nil => exact absurd hrw hr
    | cons r rs => exact ⟨r.1, rs.map (·.1), by simp [monthsOf, hrw]⟩
  set a := t.foldl min h with ha
  set b := t.foldl max h with hb
  have hspan : spanMs (monthsOf s) = List.range' a (b - a + 1) := by
    rw [hms, spanMs_cons]
  have hsplit : List.range' a (b - a + 1) = a :: List.range' (a + 1) (b - a) := by
    rw [List.range'_succ]
  unfold monthlyProd monthlyCum prodSpec
  rw [hspan, hsplit, List.map_cons]
  show dropnaRows ((a, List.zipWith optSub (rowOpt s a) (List.replicate s.cols.length none)) ::
    diffWithPrev (rowOpt s a) ((List.range' (a + 1) (b - a)).map (fun m => (m, rowOpt s m)))) = _
  unfold dropnaRows
  rw [List.filterMap_cons, seq_diff_first s hclen]
  have htail := dropnaRows_diff_range s hclen (b - a) (a + 1) (by omega)
  rw [show a + 1 - 1 = a from rfl] at htail
  unfold dropnaRows at htail
  rw [htail]
  rfl

lemma filterMap_if_all {α : Type} {l : List ℕ} {P : ℕ → Prop} [DecidablePred P]
    {f : ℕ → α} (h : ∀ m ∈ l, P m) :
    (l.filterMap (fun m => if P m then some (f m) else none)) = l.map f := by
  induction l with
  | nil => rfl
  | cons x t ih =>
    rw [List.filterMap_cons, if_pos (h x (List.mem_cons_self x t)), List.map_cons,
      ih (fun m hm => h m (List.mem_cons_of_mem x hm))]

/-- The span of a nonempty series is a run of consecutive months. -/
lemma spanMs_shape (s : Series) (hr : s.rows ≠ []) :
    ∃ a k, spanMs (monthsOf s) = List.range' a (k + 1) := by
  obtain ⟨h, t, hms⟩ : ∃ h t, monthsOf s = h :: t := by
    cases hrw : s.rows with
    | nil => exact absurd hrw hr
    | cons r rs => exact ⟨r.1, rs.map (·.1), by simp [monthsOf, hrw]⟩
  exact ⟨t.foldl min h, t.foldl max h - t.foldl min h, by rw [hms, spanMs_cons]⟩

/-- Entity series with a one-month reporting gap (samples in January and
March 2023, none in February): the engine emits zero rows, not span
minus one and not distinct minus one. -/
def c1Series : Series :=
  ⟨["FOPT_OIL_PRODUCTION_CUML_STB"], [(24276, [0]), (24278, [5])]⟩

/-- Gap-free two-month entity series (January and February 2023). -/
def c1wSeries : Series := ⟨["FOPT_OIL_PRODUCTION_CUML_STB"], [(24276, [0]), (24277, [3])]⟩

/-- C1 counterexample: with a reporting gap inside the span, the output
row count is neither (months spanned) - 1 nor (distinct sampled
months) - 1: resampling makes the empty month a NaN checkpoint, and
diff plus dropna then drops the empty month and its successor too. -/
theorem c1_counterexample :
    (calculate_monthly_rates c1Series).idx.length = 0 ∧
    (spanMs (monthsOf c1Series)).length = 3 ∧
    (uniqueFirst (monthsOf c1Series)).length = 2 ∧
    (calculate_monthly_rates c1Series).idx.length ≠ (spanMs (monthsOf c1Series)).length - 1 ∧
    (calculate_monthly_rates c1Series).idx.length ≠ (uniqueFirst (monthsOf c1Series)).length - 1 := by
  decide

/-- C1 (amended): for a nonempty entity series with at least one measure
column in which every month of the sampled span carries at least one
sample, the output row count is the number of spanned months minus one
(exactly the first month is dropped). -/
theorem c1_amended_row_count (s : Series) (hr : s.rows ≠ []) (hc : s.cols ≠ [])
    (hfull : ∀ m ∈ spanMs (monthsOf s), m ∈ monthsOf s) :
    (calculate_monthly_rates s).idx.length = (spanMs (monthsOf s)).length - 1 := by
  obtain ⟨a, k, hspan⟩ := spanMs_shape s hr
  have hdrop : (spanMs (monthsOf s)).drop 1 = List.range' (a + 1) k := by
    rw [hspan, List.range'_succ]
    rfl
  have hall : ∀ m ∈ (spanMs (monthsOf s)).drop 1,
      m ∈ monthsOf s ∧ m - 1 ∈ monthsOf s := by
    intro m hm
    rw [hdrop, List.mem_range'_1] at hm
    constructor
    · exact hfull m (by rw [hspan, List.mem_range'_1]; omega)
    · exact hfull (m - 1) (by rw [hspan, List.mem_range'_1]; omega)
  show ((monthlyProd s).map (·.1)).length = _
  rw [monthlyProd_spec s hr hc]
  unfold prodSpec
  rw [filterMap_if_all hall, List.length_map, List.length_map, List.length_drop]

/-- Witness for the amended C1 theorem at a gap-free series. -/
theorem c1_amended_row_count_witness :
    (c1wSeries.rows ≠ [] ∧ c1wSeries.cols ≠ [] ∧
      ∀ m ∈ spanMs (monthsOf c1wSeries), m ∈ monthsOf c1wSeries) ∧
    (calculate_monthly_rates c1wSeries).idx.length = (spanMs (monthsOf c1wSeries)).length - 1 :=
  ⟨⟨by decide, by decide, by decide⟩,
    c1_amended_row_count c1wSeries (by decide) (by decide) (by decide)⟩

/-- Entity series for February of the non-leap year 2023 (absolute month
24277 = 12 * 2023 + 1): cumulative delta 28 over 28 days. -/
def c8SeriesNonLeap : Series :=
  ⟨["FOPT_OIL_PRODUCTION_CUML_STB"], [(24276, [0]), (24277, [28])]⟩

/-- Entity series for February of the leap year 2024 (absolute month
24289): cumulative delta 29 over 29 days. -/
def c8SeriesLeap : Series :=
  ⟨["FOPT_OIL_PRODUCTION_CUML_STB"], [(24288, [0]), (24289, [29])]⟩

/-- C8: deltas are divided by the calendar length of the month with the
leap-year rule: February has 29 days exactly in leap years (day 738871
is 2023-02-15, grounding absolute month 24277 as February 2023); a
non-leap February delta of 28 yields the rate 1.00 and a leap February
delta of 29 also yields 1.00. -/
theorem c8_days_in_month_rates :
    (∀ y, daysInMonthYM y 2 = if isLeapYear y then 29 else 28) ∧
    monthKeyOfDay 738871 = 24277 ∧
    daysInMonth 24277 = 28 ∧ daysInMonth 24289 = 29 ∧
    calculate_monthly_rates c8SeriesNonLeap =
      ⟨[24277], [("FOPT_OIL_PRODUCTION_CUML_STB", [1])]⟩ ∧
    calculate_monthly_rates c8SeriesLeap =
      ⟨[24289], [("FOPT_OIL_PRODUCTION_CUML_STB", [1])]⟩ :=
  ⟨fun _ => rfl, by decide, by decide, by decide, by
    have h : calculate_monthly_rates c8SeriesNonLeap =
        ⟨[24277], [("FOPT_OIL_PRODUCTION_CUML_STB",
          [round2 (((28:ℚ) - 0) / (28:ℚ))])]⟩ := rfl
    rw [h]
    norm_num [round2, show ∀ q : ℚ, q.floor = ⌊q⌋ from fun _ => rfl], by
    have h : calculate_monthly_rates c8SeriesLeap =
        ⟨[24289], [("FOPT_OIL_PRODUCTION_CUML_STB",
          [round2 (((29:ℚ) - 0) / (29:ℚ))])]⟩ := rfl
    rw [h]
    norm_num [round2, show ∀ q : ℚ, q.floor = ⌊q⌋ from fun _ => rfl]⟩

/-- Series whose single column name carries both markers. -/
def c10Series : Series :=
  ⟨["WBHP_CUML_PRESSURE_PSIA"], [(24276, [2]), (24277, [3])]⟩

/-- C10: a column whose name contains both CUML and PRESSURE is handled
by the cumulative branch (differenced and divided by days in month) and
its entry in the output table is the cumulative one, never the
period-averaged pressure aggregation, because the engine tests CUML
first. -/
theorem c10_cuml_wins_over_pressure (s : Series) (j : ℕ) (c : String)
    (hjc : (j, c) ∈ s.cols.enum)
    (hcum : containsStr c "CUML" = true)
    ( _hpres : containsStr c "PRESSURE" = true) :
    classifyColumnValues s j c = some (c, rateColValues s j) ∧
    (c, rateColValues s j) ∈ (calculate_monthly_rates s).cols := by
  have hcl : classifyColumnValues s j c = some (c, rateColValues s j) := by
    simp [classifyColumnValues, hcum]
  refine ⟨hcl, List.mem_filterMap.mpr ⟨(j, c), hjc, hcl⟩⟩

/-- Witness for C10 at a both-marker column. -/
theorem c10_cuml_wins_over_pressure_witness :
    ((0, "WBHP_CUML_PRESSURE_PSIA") ∈ c10Series.cols.enum ∧
      containsStr "WBHP_CUML_PRESSURE_PSIA" "CUML" = true ∧
      containsStr "WBHP_CUML_PRESSURE_PSIA" "PRESSURE" = true) ∧
    (classifyColumnValues c10Series 0 "WBHP_CUML_PRESSURE_PSIA" =
        some ("WBHP_CUML_PRESSURE_PSIA", rateColValues c10Series 0) ∧
      ("WBHP_CUML_PRESSURE_PSIA", rateColValues c10Series 0) ∈
        (calculate_monthly_rates c10Series).cols) :=
  ⟨⟨by decide, by decide, by decide⟩,
    c10_cuml_wins_over_pressure c10Series 0 "WBHP_CUML_PRESSURE_PSIA"
      (by decide) (by decide) (by decide)⟩

/-! ### Monotone cumulative columns give nonnegative rates -/

lemma lastCell_mem {l : List (ℕ × ℚ)} {v : ℚ} (h : lastCell l = some v) :
    ∃ p ∈ l, p.2 = v := by
  induction l with
  | nil => simp [lastCell] at h
  | cons p t ih =>
    cases t with
    | nil =>
      refine ⟨p, List.mem_cons_self p [], ?_⟩
      simpa [lastCell] using h
    | cons q u =>
      obtain ⟨r, hr, hrv⟩ := ih h
      exact ⟨r, List.mem_cons_of_mem _ hr, hrv⟩

/-- In a series listed in time order with non-decreasing months and
non-decreasing values, the last value of an earlier month is at most the
last value of a later month. -/
lemma lastCell_filter_mono {xs : List (ℕ × ℚ)}
    (hm : xs.Pairwise (fun p q => p.1 ≤ q.1))
    (hv : xs.Pairwise (fun p q => p.2 ≤ q.2))
    {a b : ℕ} (hab : a < b) {x y : ℚ}
    (hx : lastCell (xs.filter (fun p => p.1 == a)) = some x)
    (hy : lastCell (xs.filter (fun p => p.1 == b)) = some y) :
    x ≤ y := by
  induction xs with
  | nil => simp [lastCell] at hx
  | cons p t ih =>
    obtain ⟨hmh, hmt⟩ := List.pairwise_cons.mp hm
    obtain ⟨hvh, hvt⟩ := List.pairwise_cons.mp hv
    by_cases hpb : p.1 = b
    · have hfa : (p :: t).filter (fun z => z.1 == a) = [] := by
        rw [List.filter_eq_nil_iff]
        intro z hz
        rcases List.mem_cons.mp hz with rfl | hz'
        · simp only [beq_iff_eq]
          omega
        · have hge := hmh z hz'
          simp only [beq_iff_eq]
          omega
      rw [hfa] at hx
      simp [lastCell] at hx
    · have hb' : (p.1 == b) = false := by simp [hpb]
      have hyt : lastCell (t.filter (fun z => z.1 == b)) = some y := by
        simpa [List.filter_cons, hb'] using hy
      by_cases hpa : p.1 = a
      · have ha' : (p.1 == a) = true := by simp [hpa]
        have hxa : lastCell (p :: t.filter (fun z => z.1 == a)) = some x := by
          simpa [List.filter_cons, ha'] using hx
        cases hft : t.filter (fun z => z.1 == a) with
        | nil =>
          rw [hft] at hxa
          have hxp : x = p.2 := by
            have h := hxa
            simp [lastCell] at h
            exact h.symm
          obtain ⟨r, hr, hrv⟩ := lastCell_mem hyt
          have hrt : r ∈ t := List.mem_of_mem_filter hr
          rw [hxp, ← hrv]
          exact hvh r hrt
        | cons q u =>
          have hx' : lastCell (t.filter (fun z => z.1 == a)) = some x := by
            rw [hft]
            rw [hft] at hxa
            exact hxa
          exact ih hmt hvt hx' hyt
      · have ha' : (p.1 == a) = false := by simp [hpa]
        have hx' : lastCell (t.filter (fun z => z.1 == a)) = some x := by
          simpa [List.filter_cons, ha'] using hx
        exact ih hmt hvt hx' hyt

lemma lastv_mono (s : Series) (j : ℕ)
    (hm : s.rows.Pairwise (fun p q => p.1 ≤ q.1))
    (hv : s.rows.Pairwise (fun p q => p.2.getD j 0 ≤ q.2.getD j 0))
    {a b : ℕ} (hab : a < b) (ha : a ∈ monthsOf s) (hb : b ∈ monthsOf s) :
    lastv s j a ≤ lastv s j b := by
  have hm' : (colSeries s j).Pairwise (fun p q => p.1 ≤ q.1) := by
    unfold colSeries
    rw [List.pairwise_map]
    exact hm
  have hv' : (colSeries s j).Pairwise (fun p q => p.2 ≤ q.2) := by
    unfold colSeries
    rw [List.pairwise_map]
    exact hv
  exact lastCell_filter_mono hm' hv' hab
    (lastInMonth_of_mem ha) (lastInMonth_of_mem hb)

lemma round2_nonneg {x : ℚ} (hx : 0 ≤ x) : 0 ≤ round2 x := by
  unfold round2
  have h1 : (0 : ℤ) ≤ (x * 100 + 1 / 2).floor := by
    rw [show (x * 100 + 1 / 2).floor = ⌊x * 100 + 1 / 2⌋ from rfl]
    refine Int.le_floor.mpr ?_
    push_cast
    linarith
  have h2 : (0 : ℚ) ≤ ((x * 100 + 1 / 2).floor : ℚ) := by exact_mod_cast h1
  have h3 : (0 : ℚ) < 100 := by norm_num
  exact div_nonneg h2 (le_of_lt h3)

lemma getD_range_map {k j : ℕ} (f : ℕ → ℚ) (hj : j < k) :
    ((List.range k).map f).getD j 0 = f j := by
  rw [List.getD_eq_getElem?_getD, List.getElem?_map, List.getElem?_range hj]
  rfl

/-- Gap-free increasing cumulative series used as the C2 witness. -/
def c2wSeries : Series :=
  ⟨["FOPT_OIL_PRODUCTION_CUML_STB"], [(24276, [0]), (24277, [3])]⟩

/-- C2: if the cumulative column j (name containing CUML) is
non-decreasing along the time-ordered series, every value of its derived
rate column in the output table is nonnegative. -/
theorem c2_cum_rate_nonneg (s : Series) (j : ℕ) (c : String)
    (hjc : (j, c) ∈ s.cols.enum)
    (hcum : containsStr c "CUML" = true)
    (hm : s.rows.Pairwise (fun p q => p.1 ≤ q.1))
    (hv : s.rows.Pairwise (fun p q => p.2.getD j 0 ≤ q.2.getD j 0)) :
    (c, rateColValues s j) ∈ (calculate_monthly_rates s).cols ∧
    ∀ v ∈ rateColValues s j, 0 ≤ v := by
  constructor
  · exact List.mem_filterMap.mpr ⟨(j, c), hjc, by simp [classifyColumnValues, hcum]⟩
  · intro v hvmem
    have hjlen : j < s.cols.length := by
      have h1 := List.mem_enum_iff_getElem?.mp hjc
      obtain ⟨h2, _⟩ := List.getElem?_eq_some.mp h1
      exact h2
    by_cases hr : s.rows = []
    · have hempty : monthlyProd s = [] := by
        simp [monthlyProd, monthlyCum, monthsOf, spanMs, hr, dropnaRows, diffWithPrev]
      rw [rateColValues, hempty] at hvmem
      cases hvmem
    · have hcne : s.cols ≠ [] := by
        intro h0
        rw [h0] at hjlen
        simp at hjlen
      obtain ⟨p, hp, hpv⟩ := List.mem_map.mp hvmem
      rw [monthlyProd_spec s hr hcne] at hp
      obtain ⟨m, _hmmem, hmsome⟩ := List.mem_filterMap.mp hp
      by_cases hcond : m ∈ monthsOf s ∧ m - 1 ∈ monthsOf s
      · rw [if_pos hcond] at hmsome
        obtain rfl := Option.some.inj hmsome
        have hget : ((m, (List.range s.cols.length).map
            (fun i => lastv s i m - lastv s i (m - 1))) : ℕ × List ℚ).2.getD j 0 =
            lastv s j m - lastv s j (m - 1) := getD_range_map _ hjlen
        have hdiff : 0 ≤ lastv s j m - lastv s j (m - 1) := by
          rcases Nat.eq_zero_or_pos m with rfl | hmpos
          · simp
          · have hle := lastv_mono s j hm hv (by omega : m - 1 < m) hcond.2 hcond.1
            linarith
        rw [← hpv]
        simp only [hget]
        exact round2_nonneg (div_nonneg hdiff (by positivity))
      · rw [if_neg hcond] at hmsome
        cases hmsome

/-- Witness for C2 at a concrete increasing cumulative series. -/
theorem c2_cum_rate_nonneg_witness :
    ((0, "FOPT_OIL_PRODUCTION_CUML_STB") ∈ c2wSeries.cols.enum ∧
      containsStr "FOPT_OIL_PRODUCTION_CUML_STB" "CUML" = true ∧
      c2wSeries.rows.Pairwise (fun p q => p.1 ≤ q.1) ∧
      c2wSeries.rows.Pairwise (fun p q => p.2.getD 0 0 ≤ q.2.getD 0 0)) ∧
    (("FOPT_OIL_PRODUCTION_CUML_STB", rateColValues c2wSeries 0) ∈
        (calculate_monthly_rates c2wSeries).cols ∧
      ∀ v ∈ rateColValues c2wSeries 0, 0 ≤ v) :=
  ⟨⟨by decide, by decide, by decide, by with_unfolding_all decide⟩,
    c2_cum_rate_nonneg c2wSeries 0 "FOPT_OIL_PRODUCTION_CUML_STB"
      (by decide) (by decide) (by decide) (by with_unfolding_all decide)⟩

/-! ### Alignment of pressure aggregation on the cumulative row set -/

/-- Series with one cumulative and one pressure column, no gap. -/
def c4wSeries : Series :=
  ⟨["FOPT_OIL_PRODUCTION_CUML_STB", "FPR_PRESSURE_PSIA"],
    [(24276, [0, 10]), (24277, [28, 30])]⟩

/-- C4: for a series with a cumulative column and a pressure column, the
final table's row set is exactly the valid-row set of the cumulative
differencing (the index of df_monthly_prod); the first span month -
present in the pressure aggregation, whose bins cover the whole span -
is not a row of the final table; and the pressure column of the table is
the month-by-month mean aligned on those cumulative rows. -/
theorem c4_row_set_alignment (s : Series) (j₁ j₂ : ℕ) (c₁ c₂ : String)
    (h₁ : (j₁, c₁) ∈ s.cols.enum) ( _hc₁ : containsStr c₁ "CUML" = true)
    (h₂ : (j₂, c₂) ∈ s.cols.enum) (hc₂c : containsStr c₂ "CUML" = false)
    (hc₂p : containsStr c₂ "PRESSURE" = true) (hr : s.rows ≠ []) :
    (calculate_monthly_rates s).idx = (monthlyProd s).map (·.1) ∧
    (∀ m₀, (spanMs (monthsOf s)).head? = some m₀ →
      m₀ ∈ spanMs (monthsOf s) ∧ m₀ ∉ (calculate_monthly_rates s).idx) ∧
    (c₂, presColValues s j₂) ∈ (calculate_monthly_rates s).cols := by
  have hcne : s.cols ≠ [] := by
    intro h0
    have h1 := List.mem_enum_iff_getElem?.mp h₁
    obtain ⟨h2, _⟩ := List.getElem?_eq_some.mp h1
    rw [h0] at h2
    simp at h2
  refine ⟨rfl, ?_, ?_⟩
  · intro m₀ hhead
    obtain ⟨a, k, hspan⟩ := spanMs_shape s hr
    have hm₀ : m₀ = a := by
      rw [hspan, List.range'_succ] at hhead
      simpa using hhead.symm
    subst hm₀
    constructor
    · rw [hspan, List.mem_range'_1]
      omega
    · intro hmem
      show False
      have hmem' : m₀ ∈ (monthlyProd s).map (·.1) := hmem
      rw [monthlyProd_spec s hr hcne] at hmem'
      obtain ⟨p, hp, hp1⟩ := List.mem_map.mp hmem'
      obtain ⟨m, hmdrop, hmsome⟩ := List.mem_filterMap.mp hp
      have hmrange : m ∈ List.range' (m₀ + 1) k := by
        have : (spanMs (monthsOf s)).drop 1 = List.range' (m₀ + 1) k := by
          rw [hspan, List.range'_succ]
          rfl
        rwa [this] at hmdrop
      rw [List.mem_range'_1] at hmrange
      by_cases hcond : m ∈ monthsOf s ∧ m - 1 ∈ monthsOf s
      · rw [if_pos hcond] at hmsome
        obtain rfl := Option.some.inj hmsome
        simp at hp1
        omega
      · rw [if_neg hcond] at hmsome
        cases hmsome
  · exact List.mem_filterMap.mpr ⟨(j₂, c₂), h₂, by
      simp [classifyColumnValues, hc₂c, hc₂p]⟩

/-- Witness for C4 at a concrete cumulative-plus-pressure series. -/
theorem c4_row_set_alignment_witness :
    ((0, "FOPT_OIL_PRODUCTION_CUML_STB") ∈ c4wSeries.cols.enum ∧
      containsStr "FOPT_OIL_PRODUCTION_CUML_STB" "CUML" = true ∧
      (1, "FPR_PRESSURE_PSIA") ∈ c4wSeries.cols.enum ∧
      containsStr "FPR_PRESSURE_PSIA" "CUML" = false ∧
      containsStr "FPR_PRESSURE_PSIA" "PRESSURE" = true ∧
      c4wSeries.rows ≠ []) ∧
    ((calculate_monthly_rates c4wSeries).idx = (monthlyProd c4wSeries).map (·.1) ∧
      (∀ m₀, (spanMs (monthsOf c4wSeries)).head? = some m₀ →
        m₀ ∈ spanMs (monthsOf c4wSeries) ∧
          m₀ ∉ (calculate_monthly_rates c4wSeries).idx) ∧
      ("FPR_PRESSURE_PSIA", presColValues c4wSeries 1) ∈
        (calculate_monthly_rates c4wSeries).cols) :=
  ⟨⟨by decide, by decide, by decide, by decide, by decide, by decide⟩,
    c4_row_set_alignment c4wSeries 0 1 "FOPT_OIL_PRODUCTION_CUML_STB"
      "FPR_PRESSURE_PSIA" (by decide) (by decide) (by decide) (by decide)
      (by decide) (by decide)⟩

/-! ### Index Formatter (format_monthly_index / _adjust_monthly_index)

The formatter of the combined pipeline rewrites the DatetimeIndex of the
monthly table, a calendar date per row: to_period and to_timestamp floor
the date to the first of its month, subtracting pd.DateOffset of one
month steps back one calendar month clamping the day to the target
month's length, and adding pd.offsets.MonthEnd of one rolls forward to
the end of the month (jumping to the next month's end when the date
already is a month end).  Column values are untouched. -/

/-- A calendar date. -/
structure YMD where
  y : ℕ
  m : ℕ
  d : ℕ
deriving DecidableEq

/-- index.to_period of month frequency, then to_timestamp: the first day
of the entry's month. -/
def periodFloor (t : YMD) : YMD := ⟨t.y, t.m, 1⟩

/-- Subtracting pd.DateOffset of one month: step back one calendar
month, clamping the day to the target month's length. -/
def subOneMonth (t : YMD) : YMD :=
  if t.m = 1 then ⟨t.y - 1, 12, min t.d 31⟩
  else ⟨t.y, t.m - 1, min t.d (daysInMonthYM t.y (t.m - 1))⟩

/-- Adding pd.offsets.MonthEnd of one: roll forward to the month's last
day, jumping to the next month's end if already on a month end. -/
def monthEndRollForward (t : YMD) : YMD :=
  if t.d = daysInMonthYM t.y t.m then
    (if t.m = 12 then ⟨t.y + 1, 1, 31⟩
     else ⟨t.y, t.m + 1, daysInMonthYM t.y (t.m + 1)⟩)
  else ⟨t.y, t.m, daysInMonthYM t.y t.m⟩

/-- format_monthly_index of combined_processor.py (the same statements
as _adjust_monthly_index of main.py): floor each index entry to its month,
shift back one month, roll forward to that month's end; values kept. -/
def format_monthly_index (tbl : List (YMD × List ℚ)) : List (YMD × List ℚ) :=
  tbl.map (fun p => (monthEndRollForward (subOneMonth (periodFloor p.1)), p.2))

/-- The last calendar day of the month before t's month. -/
def lastDayPrevMonth (t : YMD) : YMD :=
  if t.m = 1 then ⟨t.y - 1, 12, 31⟩
  else ⟨t.y, t.m - 1, daysInMonthYM t.y (t.m - 1)⟩

/-- A well-formed calendar date. -/
def validYMD (t : YMD) : Prop :=
  1 ≤ t.m ∧ t.m ≤ 12 ∧ 1 ≤ t.d ∧ t.d ≤ daysInMonthYM t.y t.m

instance (t : YMD) : Decidable (validYMD t) := by
  unfold validYMD
  infer_instance

lemma daysInMonthYM_ge (y m : ℕ) : 28 ≤ daysInMonthYM y m := by
  unfold daysInMonthYM
  split
  · split <;> omega
  all_goals omega

lemma format_entry_eq (t : YMD) (ht : validYMD t) :
    monthEndRollForward (subOneMonth (periodFloor t)) = lastDayPrevMonth t := by
  obtain ⟨hm1, hm12, _hd1, _hd2⟩ := ht
  rw [show periodFloor t = ⟨t.y, t.m, 1⟩ from rfl]
  by_cases h1 : t.m = 1
  · have hsub : subOneMonth ⟨t.y, t.m, 1⟩ = ⟨t.y - 1, 12, 1⟩ := by
      simp [subOneMonth, h1]
    have hroll : monthEndRollForward ⟨t.y - 1, 12, 1⟩ = ⟨t.y - 1, 12, 31⟩ := by
      have hd : daysInMonthYM (t.y - 1) 12 = 31 := rfl
      simp [monthEndRollForward, hd]
    rw [hsub, hroll]
    simp [lastDayPrevMonth, h1]
  · have hdim : 28 ≤ daysInMonthYM t.y (t.m - 1) := daysInMonthYM_ge _ _
    have hmin : min 1 (daysInMonthYM t.y (t.m - 1)) = 1 := Nat.min_eq_left (by omega)
    have hsub : subOneMonth ⟨t.y, t.m, 1⟩ = ⟨t.y, t.m - 1, 1⟩ := by
      simp [subOneMonth, h1, hmin]
    have hne : ¬(1 : ℕ) = daysInMonthYM t.y (t.m - 1) := by omega
    have hroll : monthEndRollForward ⟨t.y, t.m - 1, 1⟩ =
        ⟨t.y, t.m - 1, daysInMonthYM t.y (t.m - 1)⟩ := by
      simp [monthEndRollForward, hne]
    rw [hsub, hroll]
    simp [lastDayPrevMonth, h1]

/-- C6: on a table of well-formed dates, the Index Formatter of the
combined pipeline maps every index entry of month M to the last calendar
day of month M minus one and leaves all column values unchanged. -/
theorem c6_format_monthly_index (tbl : List (YMD × List ℚ))
    (hv : ∀ p ∈ tbl, validYMD p.1) :
    format_monthly_index tbl = tbl.map (fun p => (lastDayPrevMonth p.1, p.2)) := by
  unfold format_monthly_index
  apply List.map_congr_left
  intro p hp
  rw [format_entry_eq p.1 (hv p hp)]

/-- Concrete monthly table indexed by the month-end date 2024-03-31. -/
def c6wTable : List (YMD × List ℚ) := [(⟨2024, 3, 31⟩, [5])]

/-- Witness for C6: the March 2024 month-end entry is remapped to
2024-02-29, the last day of leap February. -/
theorem c6_format_monthly_index_witness :
    (∀ p ∈ c6wTable, validYMD p.1) ∧
    format_monthly_index c6wTable =
      c6wTable.map (fun p => (lastDayPrevMonth p.1, p.2)) :=
  ⟨by decide, c6_format_monthly_index c6wTable (by decide)⟩

/-! ### Well scope: Entity Time-Indexer and per-well Rate Engine

A raw well-scope record is one table row after header flattening: the
Entity Name cell, the parsed DATE cell as a rational day number (day 0
at 0000-03-01), the Time cell (fractional day offset) and the measure
cells in column order.  The constant Entity Type column is carried
implicitly (it is dropped unread).  pandas normalize floors a timestamp
to midnight, here the floor of the day number. -/

/-- Raw well-scope record. -/
structure RRow where
  name : String
  date : ℚ
  time : ℚ
  vals : List ℚ
deriving DecidableEq

/-- Time-indexed well-scope record: the DateTime index entry, the kept
Entity Name column and the measure cells (DATE, Time and Entity Type
are dropped). -/
structure IRow where
  ts : ℚ
  name : String
  vals : List ℚ
deriving DecidableEq

/-- dates.min(): the earliest DATE of the group. -/
def minDate : List RRow → ℚ
  | [] => 0
  | r :: t => t.foldl (fun acc x => min acc x.date) r.date

/-- origin = dates.min().normalize(): earliest DATE floored to
midnight. -/
def originOf (g : List RRow) : ℚ := ((minDate g).floor : ℚ)

/-- One well's frame: DateTime = origin + Time days, Entity Name kept. -/
def indexWellGroup (g : List RRow) : List IRow :=
  g.map (fun r => ⟨originOf g + r.time, r.name, r.vals⟩)

/-- create_datetime_index_wells (combined_processor.py; the same
statements as _process_well_datetime of main.py): for each distinct
Entity Name in first-appearance order, build that well's own DateTime
index from its own origin, then concatenate the per-well frames. -/
def create_datetime_index_wells (rows : List RRow) : List IRow :=
  (uniqueFirst (rows.map (·.name))).flatMap (fun n =>
    indexWellGroup (rows.filter (fun r => r.name == n)))

/-- Engine-stage well record: Entity Name plus the calendar month of the
DateTime index entry and the measure cells. -/
structure WRow where
  name : String
  month : ℕ
  vals : List ℚ
deriving DecidableEq

/-- The time-indexed well-scope table handed to the per-well engine:
measure column names (Entity Name is the name field) and the rows of
all wells. -/
structure WSeries where
  cols : List String
  rows : List WRow
deriving DecidableEq

/-- df_w with the Entity Name column dropped: one well's entity series. -/
def toSeries (cols : List String) (g : List WRow) : Series :=
  ⟨cols, g.map (fun r => (r.month, r.vals))⟩

/-- calculate_monthly_rates_wells (combined_processor.py; the same
statements as _calculate_well_monthly_rates of main.py): for each
distinct Entity Name in first-appearance order, drop Entity Name and
run the engine on that well's own rows, insert the WELL_NAME tag, and
concatenate; the concatenated table is modelled as the list of named
blocks, the block of name n holding exactly the rows tagged n. -/
def calculate_monthly_rates_wells (s : WSeries) : List (String × MRTable) :=
  (uniqueFirst (s.rows.map (·.name))).map (fun n =>
    (n, calculate_monthly_rates (toSeries s.cols
      (s.rows.filter (fun r => r.name == n)))))

/-- The calendar month of each indexed record, as consumed by the
monthly resampler. -/
def toWRows (l : List IRow) : List WRow :=
  l.map (fun r => ⟨r.name, monthKey r.ts, r.vals⟩)

/-- Core chain of process_wells_data: Entity Time-Indexer then per-well
Monthly Rate Engine (the Renamer and Index Formatter act on the whole
table downstream and do not touch rows). -/
def wells_pipeline (cols : List String) (rows : List RRow) :
    List (String × MRTable) :=
  calculate_monthly_rates_wells ⟨cols, toWRows (create_datetime_index_wells rows)⟩

/-- Columns dropped by the well-scope indexer. -/
def WELL_INDEX_DROP : List String := ["DATE", "Time", "Entity Type"]

/-- Schema action of create_datetime_index_wells on the column list:
DateTime is inserted first and immediately becomes the index (leaving
the columns), the listed columns are dropped, and every other column -
including Entity Name - survives. -/
def wellIndexerCols (cols : List String) : List String :=
  cols.filter (fun c => c ∉ WELL_INDEX_DROP)

lemma mem_uniqueFirst {α : Type} [BEq α] [LawfulBEq α] {x : α} {l : List α} :
    x ∈ uniqueFirst l ↔ x ∈ l := by
  induction l with
  | nil => simp [uniqueFirst]
  | cons h t ih =>
    simp only [uniqueFirst, List.mem_cons]
    constructor
    · rintro (rfl | hx)
      · exact Or.inl rfl
      · exact Or.inr (ih.mp (List.mem_of_mem_filter hx))
    · rintro (rfl | hx)
      · exact Or.inl rfl
      · by_cases hxh : x = h
        · exact Or.inl hxh
        · refine Or.inr (List.mem_filter.mpr ⟨ih.mpr hx, ?_⟩)
          simp [hxh]

lemma nodup_uniqueFirst {α : Type} [BEq α] [LawfulBEq α] (l : List α) :
    (uniqueFirst l).Nodup := by
  induction l with
  | nil => simp [uniqueFirst]
  | cons h t ih =>
    rw [uniqueFirst, List.nodup_cons]
    constructor
    · intro hmem
      have := (List.mem_filter.mp hmem).2
      simp at this
    · exact List.Nodup.filter _ ih

lemma mem_map_iff_filter_ne {α : Type} (f : α → String) (l : List α) (w : String) :
    w ∈ l.map f ↔ l.filter (fun r => f r == w) ≠ [] := by
  rw [Ne, List.filter_eq_nil_iff]
  push_neg
  constructor
  · intro hmem
    obtain ⟨a, ha, hfa⟩ := List.mem_map.mp hmem
    exact ⟨a, ha, by simp [hfa]⟩
  · rintro ⟨a, ha, hfa⟩
    refine List.mem_map.mpr ⟨a, ha, ?_⟩
    simpa using hfa

/-- The slice of the concatenated indexer output tagged with one well
name is exactly that well's own frame, built from its own rows alone. -/
lemma filter_create_datetime_index_wells (rows : List RRow) (w : String) :
    (create_datetime_index_wells rows).filter (fun r => r.name == w) =
      indexWellGroup (rows.filter (fun r => r.name == w)) := by
  have hblock : ∀ n : String, ∀ r ∈ indexWellGroup (rows.filter (fun x => x.name == n)),
      r.name = n := by
    intro n r hr
    obtain ⟨x, hx, rfl⟩ := List.mem_map.mp hr
    have := (List.mem_filter.mp hx).2
    simpa using this
  have key : ∀ ns : List String, ns.Nodup →
      ((ns.flatMap (fun n => indexWellGroup (rows.filter (fun x => x.name == n)))).filter
        (fun r => r.name == w)) =
      (if w ∈ ns then indexWellGroup (rows.filter (fun x => x.name == w)) else []) := by
    intro ns
    induction ns with
    | nil => simp
    | cons n t ih =>
      intro hnd
      obtain ⟨hn, hnd'⟩ := List.nodup_cons.mp hnd
      rw [List.flatMap_cons, List.filter_append, ih hnd']
      by_cases hwn : w = n
      · subst hwn
        rw [if_pos (List.mem_cons_self _ _), if_neg hn, List.append_nil]
        rw [List.filter_eq_self]
        intro r hr
        simp [hblock w r hr]
      · have hblank : (indexWellGroup (rows.filter (fun x => x.name == n))).filter
            (fun r => r.name == w) = [] := by
          rw [List.filter_eq_nil_iff]
          intro r hr
          rw [hblock n r hr]
          simp only [beq_iff_eq]
          exact fun h => hwn h.symm
        rw [hblank, List.nil_append]
        have hiff : (w ∈ n :: t) ↔ (w ∈ t) := by
          simp [List.mem_cons, hwn]
        rw [if_congr hiff rfl rfl]
  rw [create_datetime_index_wells, key _ (nodup_uniqueFirst _)]
  by_cases hw : w ∈ uniqueFirst (rows.map (·.name))
  · rw [if_pos hw]
  · rw [if_neg hw]
    have hnil : rows.filter (fun x => x.name == w) = [] := by
      rw [List.filter_eq_nil_iff]
      intro r hr
      simp only [beq_iff_eq]
      intro hrw
      exact hw (mem_uniqueFirst.mpr (List.mem_map.mpr ⟨r, hr, hrw⟩))
    rw [hnil]
    rfl

lemma lookup_map_names {β : Type} (ns : List String) (f : String → β) (w : String) :
    List.lookup w (ns.map (fun n => (n, f n))) =
      (if w ∈ ns then some (f w) else none) := by
  induction ns with
  | nil => simp [List.lookup]
  | cons n t ih =>
    rw [List.map_cons]
    by_cases hwn : w = n
    · subst hwn
      simp [List.lookup]
    · have hbe : (w == n) = false := by simp [hwn]
      have hiff : (w ∈ n :: t) ↔ (w ∈ t) := by simp [List.mem_cons, hwn]
      rw [show List.lookup w ((n, f n) :: t.map (fun x => (x, f x))) =
        List.lookup w (t.map (fun x => (x, f x))) by simp [List.lookup, hbe]]
      rw [ih, if_congr hiff rfl rfl]

/-- The block of the concatenated per-well rate table tagged with one
well name is the engine output on that well's own rows alone. -/
lemma lookup_wells (s : WSeries) (w : String) :
    List.lookup w (calculate_monthly_rates_wells s) =
      (if w ∈ s.rows.map (·.name) then
        some (calculate_monthly_rates (toSeries s.cols
          (s.rows.filter (fun r => r.name == w))))
      else none) := by
  rw [calculate_monthly_rates_wells, lookup_map_names]
  by_cases hw : w ∈ uniqueFirst (s.rows.map (·.name))
  · rw [if_pos hw, if_pos (mem_uniqueFirst.mp hw)]
  · rw [if_neg hw, if_neg (fun h => hw (mem_uniqueFirst.mpr h))]

lemma toWRows_filter (l : List IRow) (w : String) :
    (toWRows l).filter (fun r => r.name == w) =
      toWRows (l.filter (fun r => r.name == w)) := by
  induction l with
  | nil => rfl
  | cons r t ih =>
    by_cases hr : r.name = w
    · have hb : (r.name == w) = true := by simp [hr]
      simp [toWRows, List.filter_cons, hb] at ih ⊢
      exact ih
    · have hb : (r.name == w) = false := by simp [hr]
      simp [toWRows, List.filter_cons, hb] at ih ⊢
      exact ih

lemma toWRows_names (l : List IRow) :
    (toWRows l).map (·.name) = l.map (·.name) := by
  simp [toWRows, List.map_map]

/-- C5: in well scope each entity is processed from its own rows alone:
the slice of the indexer output tagged with a well is that well's own
frame, whose origin is the minimum of its own dates floored to midnight;
and whenever two raw inputs agree on one well's rows, the indexer slice
and the block of the final monthly-rate table of that well coincide, so
changing or removing other wells' rows leaves its timestamps, rates and
row count unchanged. -/
theorem c5_well_isolation (cols : List String) (rows₁ rows₂ : List RRow) (w : String)
    (hfe : rows₁.filter (fun r => r.name == w) = rows₂.filter (fun r => r.name == w)) :
    (create_datetime_index_wells rows₁).filter (fun r => r.name == w) =
      indexWellGroup (rows₁.filter (fun r => r.name == w)) ∧
    originOf (rows₁.filter (fun r => r.name == w)) =
      (((minDate (rows₁.filter (fun r => r.name == w))).floor : ℤ) : ℚ) ∧
    (create_datetime_index_wells rows₁).filter (fun r => r.name == w) =
      (create_datetime_index_wells rows₂).filter (fun r => r.name == w) ∧
    List.lookup w (wells_pipeline cols rows₁) =
      List.lookup w (wells_pipeline cols rows₂) := by
  have h2 : (create_datetime_index_wells rows₁).filter (fun r => r.name == w) =
      (create_datetime_index_wells rows₂).filter (fun r => r.name == w) := by
    rw [filter_create_datetime_index_wells, filter_create_datetime_index_wells, hfe]
  refine ⟨filter_create_datetime_index_wells rows₁ w, rfl, h2, ?_⟩
  unfold wells_pipeline
  rw [lookup_wells, lookup_wells]
  have hfil : (toWRows (create_datetime_index_wells rows₁)).filter
      (fun r => r.name == w) =
      (toWRows (create_datetime_index_wells rows₂)).filter (fun r => r.name == w) := by
    rw [toWRows_filter, toWRows_filter, h2]
  have hcond : (w ∈ (toWRows (create_datetime_index_wells rows₁)).map (·.name)) ↔
      (w ∈ (toWRows (create_datetime_index_wells rows₂)).map (·.name)) := by
    rw [mem_map_iff_filter_ne, mem_map_iff_filter_ne, hfil]
  rw [show (⟨cols, toWRows (create_datetime_index_wells rows₁)⟩ : WSeries).rows =
    toWRows (create_datetime_index_wells rows₁) from rfl]
  rw [show (⟨cols, toWRows (create_datetime_index_wells rows₂)⟩ : WSeries).rows =
    toWRows (create_datetime_index_wells rows₂) from rfl]
  rw [hfil, if_congr hcond rfl rfl]

/-- Two-well raw input: well A has a single record, well B has two. -/
def c5wRows1 : List RRow :=
  [⟨"A", 2, 0, [1]⟩, ⟨"B", 40, 1, [2]⟩, ⟨"B", 70, 2, [3]⟩]

/-- The same input with well B removed entirely. -/
def c5wRows2 : List RRow := [⟨"A", 2, 0, [1]⟩]

/-- Witness for C5: deleting well B's rows leaves well A's indexer slice
and rate block untouched. -/
theorem c5_well_isolation_witness :
    (c5wRows1.filter (fun r => r.name == "A") =
      c5wRows2.filter (fun r => r.name == "A")) ∧
    ((create_datetime_index_wells c5wRows1).filter (fun r => r.name == "A") =
      indexWellGroup (c5wRows1.filter (fun r => r.name == "A")) ∧
    originOf (c5wRows1.filter (fun r => r.name == "A")) =
      (((minDate (c5wRows1.filter (fun r => r.name == "A"))).floor : ℤ) : ℚ) ∧
    (create_datetime_index_wells c5wRows1).filter (fun r => r.name == "A") =
      (create_datetime_index_wells c5wRows2).filter (fun r => r.name == "A") ∧
    List.lookup "A" (wells_pipeline ["WOPT_OIL_PRODUCTION_CUML_STB"] c5wRows1) =
      List.lookup "A" (wells_pipeline ["WOPT_OIL_PRODUCTION_CUML_STB"] c5wRows2)) :=
  ⟨by decide,
    c5_well_isolation ["WOPT_OIL_PRODUCTION_CUML_STB"] c5wRows1 c5wRows2 "A" (by decide)⟩

/-- C7: a well whose series holds exactly one record contributes a block
with an empty index - zero output rows - to the concatenated table (the
total engine function raises nothing), and the blocks of every other
well are the same as if the one-point well were removed from the
input. -/
theorem c7_single_point_well (s : WSeries) (w : String) (r : WRow)
    (hw : s.rows.filter (fun x => x.name == w) = [r]) (hc : s.cols ≠ []) :
    List.lookup w (calculate_monthly_rates_wells s) =
      some (calculate_monthly_rates (toSeries s.cols [r])) ∧
    (calculate_monthly_rates (toSeries s.cols [r])).idx = [] ∧
    (∀ w', w' ≠ w →
      List.lookup w' (calculate_monthly_rates_wells s) =
        List.lookup w' (calculate_monthly_rates_wells
          ⟨s.cols, s.rows.filter (fun x => !(x.name == w))⟩)) := by
  have hrmem : r ∈ s.rows.filter (fun x => x.name == w) := by
    rw [hw]
    exact List.mem_cons_self _ _
  have hrw : r.name = w := by simpa using (List.mem_filter.mp hrmem).2
  have hwmem : w ∈ s.rows.map (·.name) :=
    List.mem_map.mpr ⟨r, List.mem_of_mem_filter hrmem, hrw⟩
  refine ⟨?_, ?_, ?_⟩
  · rw [lookup_wells, if_pos hwmem, hw]
  · have hrows : (toSeries s.cols [r]).rows ≠ [] := by simp [toSeries]
    show ((monthlyProd (toSeries s.cols [r])).map (·.1)) = []
    rw [monthlyProd_spec _ hrows hc]
    unfold prodSpec
    have hms : monthsOf (toSeries s.cols [r]) = [r.month] := by
      simp [monthsOf, toSeries]
    rw [hms]
    have h1 : r.month + 1 - r.month = 1 := by omega
    rw [show spanMs [r.month] =
      List.range' r.month (r.month + 1 - r.month) from rfl, h1, List.range'_one]
    rfl
  · intro w' hww
    rw [lookup_wells, lookup_wells]
    rw [show (⟨s.cols, s.rows.filter (fun x => !(x.name == w))⟩ : WSeries).rows =
      s.rows.filter (fun x => !(x.name == w)) from rfl]
    have hfilfil : (s.rows.filter (fun x => !(x.name == w))).filter
        (fun x => x.name == w') = s.rows.filter (fun x => x.name == w') := by
      rw [List.filter_filter]
      apply List.filter_congr
      intro x _hx
      by_cases hxw' : x.name = w'
      · have h1 : (x.name == w') = true := by simp [hxw']
        have h2 : (x.name == w) = false := by
          simp only [beq_eq_false_iff_ne, Ne, hxw']
          exact fun h => hww h
        simp [h1, h2]
      · have h1 : (x.name == w') = false := by simp [hxw']
        simp [h1]
    have hcond : (w' ∈ s.rows.map (·.name)) ↔
        (w' ∈ (s.rows.filter (fun x => !(x.name == w))).map (·.name)) := by
      rw [mem_map_iff_filter_ne, mem_map_iff_filter_ne, hfilfil]
    rw [hfilfil, if_congr hcond rfl rfl]

/-- Two-well engine-stage input: well A has one record only. -/
def c7wSeries : WSeries :=
  ⟨["WOPT_OIL_PRODUCTION_CUML_STB"],
    [⟨"A", 24276, [5]⟩, ⟨"B", 24276, [1]⟩, ⟨"B", 24277, [3]⟩]⟩

/-- Witness for C7: well A's one-record series yields an empty block
while well B is unaffected. -/
theorem c7_single_point_well_witness :
    (c7wSeries.rows.filter (fun x => x.name == "A") = [⟨"A", 24276, [5]⟩] ∧
      c7wSeries.cols ≠ []) ∧
    (List.lookup "A" (calculate_monthly_rates_wells c7wSeries) =
      some (calculate_monthly_rates (toSeries c7wSeries.cols [⟨"A", 24276, [5]⟩])) ∧
    (calculate_monthly_rates (toSeries c7wSeries.cols [⟨"A", 24276, [5]⟩])).idx = [] ∧
    (∀ w', w' ≠ "A" →
      List.lookup w' (calculate_monthly_rates_wells c7wSeries) =
        List.lookup w' (calculate_monthly_rates_wells
          ⟨c7wSeries.cols, c7wSeries.rows.filter (fun x => !(x.name == "A"))⟩))) :=
  ⟨⟨by decide, by decide⟩,
    c7_single_point_well c7wSeries "A" ⟨"A", 24276, [5]⟩ (by decide) (by decide)⟩

/-- A flattened well-scope column list as read from the simulator
export. -/
def c9Cols : List String :=
  ["DATE", "Time", "Entity Type", "Entity Name", "WOPT_OIL_PRODUCTION_CUML_STB"]

/-- C9 counterexample: the well-scope Entity Time-Indexer drops only
DATE, Time and Entity Type; the Entity Name column remains among the
output columns of the indexer (it is removed only later, inside the
Rate Engine). -/
theorem c9_counterexample : "Entity Name" ∈ wellIndexerCols c9Cols := by decide

/-- C9 (amended): for every well-scope input the indexer output contains
no date, time-offset or entity-type column, but the entity-name column
survives the indexer exactly when the input has one; it is dropped from
the columns only by the per-well Rate Engine, which keeps the name as
the grouping key and re-emits it as the WELL_NAME tag. -/
theorem c9_amended_indexer_cols (cols : List String) :
    "DATE" ∉ wellIndexerCols cols ∧
    "Time" ∉ wellIndexerCols cols ∧
    "Entity Type" ∉ wellIndexerCols cols ∧
    ("Entity Name" ∈ wellIndexerCols cols ↔ "Entity Name" ∈ cols) := by
  have hmem : ∀ c : String, c ∈ wellIndexerCols cols ↔
      c ∈ cols ∧ c ∉ WELL_INDEX_DROP := by
    intro c
    rw [wellIndexerCols, List.mem_filter]
    simp
  refine ⟨?_, ?_, ?_, ?_, ?_⟩
  · intro h
    exact ((hmem _).mp h).2 (by decide)
  · intro h
    exact ((hmem _).mp h).2 (by decide)
  · intro h
    exact ((hmem _).mp h).2 (by decide)
  · intro h
    exact ((hmem _).mp h).1
  · intro h
    exact (hmem _).mpr ⟨h, by decide⟩

end IxResult
